import Mathlib

/-!
Shallow embedding of the RMS-from-PSD extractor of `SeismoSocialDistancing.ipynb`
(the functions `dfrms` and `df_rms` of the "Step 7" cell), together with theorems
checking the specification's claims about it.

Modelling choices:
* a PSD table (`pandas.DataFrame`) is a row index of opaque timestamp labels plus
  a list of frequency columns in stored order; a cell is `Option ℝ`, with `none`
  playing the role of a missing value / NaN;
* frequencies and band bounds are rationals (they are compared and subtracted,
  never fed to transcendental functions except through the cast to `ℝ`);
* decibel cell values and all derived power values are real numbers;
* numpy operations that produce NaN (square root of a negative number,
  arithmetic on NaN) are modelled by `Option`; numpy never raises on the
  inputs representable here, it returns values, NaN or empty results, so the
  `Except` wrapper of `df_rms` has no error case.
-/

/-- A PSD table: a row index of timestamp labels, and the frequency columns in
stored order; each column is its frequency in Hz paired with the column's
values down the rows (`none` models a missing value / NaN). -/
structure Frame where
  index : List String
  cols : List (ℚ × List (Option ℝ))

/-- Result table of `df_rms`: the same kind of row index, one column per band
label, in insertion order. -/
structure RmsFrame where
  index : List String
  bands : List (String × List (Option ℝ))

/-- `d.dropna(axis=1, how='all')`: drop every column whose value is missing in
all rows (on a table with no rows this drops every column, as pandas does). -/
def dropnaCols (d : Frame) : Frame :=
  { index := d.index, cols := d.cols.filter fun c => c.2.any Option.isSome }

/-- numpy `np.trapz(y, x)` on the points of one row, with `none` as NaN: the
sum of `(x2 - x1) * (y1 + y2) / 2` over consecutive points; a missing value
among the points makes the result NaN.  With fewer than two points the sum is
empty and the result is `0.0`. -/
noncomputable def trapz : List (ℚ × Option ℝ) → Option ℝ
  | [] => some 0
  | [_] => some 0
  | (x1, y1) :: (x2, y2) :: rest => do
    let a ← y1
    let b ← y2
    let r ← trapz ((x2, y2) :: rest)
    pure (((x2 : ℝ) - (x1 : ℝ)) * (a + b) / 2 + r)

/-- numpy `np.sqrt` on a cell: NaN stays NaN, a negative argument gives NaN,
otherwise the real square root. -/
noncomputable def npSqrt (o : Option ℝ) : Option ℝ :=
  o.bind fun v => if v < 0 then none else some (Real.sqrt v)

/-- The notebook's `dfrms(a)`, `np.sqrt(np.trapz(a.values, a.index))`, where
the argument series holds one row's selected cells indexed by the selected
frequencies. -/
noncomputable def dfrms (pts : List (ℚ × Option ℝ)) : Option ℝ :=
  npSqrt (trapz pts)

/-- The notebook's `amp = 10.0**(spec/10.)` applied to one column: decibels to
linear power, elementwise, missing values staying missing. -/
noncomputable def ampCol (c : ℚ × List (Option ℝ)) : ℚ × List (Option ℝ) :=
  (c.1, c.2.map (Option.map fun b => (10 : ℝ) ^ (b / 10)))

/-- Division of a power-spectrum column by `(2π·f)^2`: the notebook's
`amp / w2f**2` with `w2f = 2.0 * np.pi * f`, elementwise per column. -/
noncomputable def divW2 (c : ℚ × List (Option ℝ)) : ℚ × List (Option ℝ) :=
  (c.1, c.2.map (Option.map fun v => v / (2 * Real.pi * (c.1 : ℝ)) ^ 2))

/-- The notebook's `spec.apply(dfrms, axis=1)` for a selection of columns: the
row-wise RMS series, one value for each of the `n` rows of the table. -/
noncomputable def applyRMS (n : ℕ) (sel : List (ℚ × List (Option ℝ))) :
    List (Option ℝ) :=
  (List.range n).map fun i => dfrms (sel.map fun c => (c.1, c.2.getD i none))

/-- The series computed for one band in the loop body of `df_rms`: select the
columns with `fmin <= f <= fmax` (in stored order, as `np.where` returns
ascending positions), convert dB to power, divide by `(2πf)^2` once when
`output == "VEL"` and twice when `output` is neither `"ACC"` nor `"VEL"`, and
reduce each row with `dfrms`. -/
noncomputable def bandSeries (n : ℕ) (cols : List (ℚ × List (Option ℝ)))
    (fmin fmax : ℚ) (output : String) : List (Option ℝ) :=
  let sel := cols.filter fun c => decide (fmin ≤ c.1 ∧ c.1 ≤ fmax)
  let amp := sel.map ampCol
  if output = "ACC" then applyRMS n amp
  else
    let vamp := amp.map divW2
    if output = "VEL" then applyRMS n vamp
    else applyRMS n (vamp.map divW2)

/-- Python's `"%.1f" % q`: the value rounded to one decimal digit, printed with
exactly one digit after the point.  (CPython rounds the shortest-decimal tie
of the underlying double half-to-even; on the non-tie values used by the
claims this coincides with rational rounding.) -/
def fmt1 (q : ℚ) : String :=
  let t : ℤ := round (q * 10)
  let s := if t < 0 then "-" else ""
  s ++ toString (t.natAbs / 10) ++ "." ++ toString (t.natAbs % 10)

/-- The key under which one band's series is stored:
`"%.1f-%.1f" % (fmin, fmax)`. -/
def labelOf (p : ℚ × ℚ) : String :=
  fmt1 p.1 ++ "-" ++ fmt1 p.2

/-- Python dict assignment `m[k] = v` on an insertion-ordered dictionary:
replace the value in place when the key is present, append otherwise. -/
def dictInsert {α : Type} (m : List (String × α)) (k : String) (v : α) :
    List (String × α) :=
  if m.any fun p => p.1 == k then m.map fun p => if p.1 = k then (k, v) else p
  else m ++ [(k, v)]

/-- The notebook's `df_rms(d, freqs, output)`.  The result is wrapped in
`Except` because the specification discusses raised errors; the body raises
nothing: every numpy/pandas operation it uses returns a value (possibly NaN,
empty, or an all-zero reduction) on every input representable here. -/
noncomputable def df_rms (d0 : Frame) (freqs : List (ℚ × ℚ)) (output : String) :
    Except String RmsFrame :=
  let d := dropnaCols d0
  Except.ok
    { index := d.index
      bands := freqs.foldl (fun m p =>
        dictInsert m (labelOf p) (bandSeries d.index.length d.cols p.1 p.2 output)) [] }

/-- A call `df_rms(d, freqs)` with the `output` argument omitted: the
signature's default is `output="VEL"`. -/
noncomputable def df_rmsDefault (d0 : Frame) (freqs : List (ℚ × ℚ)) :
    Except String RmsFrame :=
  df_rms d0 freqs "VEL"

/-- The specification's algorithm (§4.1 steps 2–5) for one band, written from
the spec's words for comparison with `bandSeries`: select the columns with
frequency in `[fmin, fmax]`, convert each decibel value to power `10^(db/10)`,
divide by `(2πf)^2` `k` times (`k = 0` for ACCELERATION, `1` for VELOCITY,
`2` for DISPLACEMENT), then for each row integrate the power spectrum with the
trapezoidal rule over the selected frequencies and take the square root. -/
noncomputable def specSeries (d : Frame) (fmin fmax : ℚ) (k : ℕ) :
    List (Option ℝ) :=
  let sel := d.cols.filter fun c => decide (fmin ≤ c.1 ∧ c.1 ≤ fmax)
  (List.range d.index.length).map fun i =>
    npSqrt (trapz (sel.map fun c =>
      (c.1, (c.2.getD i none).map fun b =>
        (10 : ℝ) ^ (b / 10) / ((2 * Real.pi * (c.1 : ℝ)) ^ 2) ^ k)))

/-! ### Basic unfolding lemmas -/

theorem bandSeries_acc_eq (n : ℕ) (cols : List (ℚ × List (Option ℝ)))
    (fmin fmax : ℚ) :
    bandSeries n cols fmin fmax "ACC"
      = applyRMS n ((cols.filter fun c => decide (fmin ≤ c.1 ∧ c.1 ≤ fmax)).map ampCol) :=
  rfl

theorem bandSeries_vel_eq (n : ℕ) (cols : List (ℚ × List (Option ℝ)))
    (fmin fmax : ℚ) :
    bandSeries n cols fmin fmax "VEL"
      = applyRMS n
          (((cols.filter fun c => decide (fmin ≤ c.1 ∧ c.1 ≤ fmax)).map ampCol).map divW2) :=
  rfl

theorem bandSeries_other_eq (n : ℕ) (cols : List (ℚ × List (Option ℝ)))
    (fmin fmax : ℚ) (output : String) (h1 : output ≠ "ACC") (h2 : output ≠ "VEL") :
    bandSeries n cols fmin fmax output
      = applyRMS n
          ((((cols.filter fun c => decide (fmin ≤ c.1 ∧ c.1 ≤ fmax)).map ampCol).map
            divW2).map divW2) := by
  simp only [bandSeries, if_neg h1, if_neg h2]

theorem getD_map_optionMap (l : List (Option ℝ)) (g : ℝ → ℝ) (i : ℕ) :
    (l.map (Option.map g)).getD i none = (l.getD i none).map g := by
  induction l generalizing i with
  | nil => simp
  | cons a t ih =>
    cases i with
    | zero => simp
    | succ j => simpa using ih j

theorem applyRMS_getD (n : ℕ) (sel : List (ℚ × List (Option ℝ))) (i : ℕ)
    (hi : i < n) :
    (applyRMS n sel).getD i none = dfrms (sel.map fun c => (c.1, c.2.getD i none)) := by
  simp [applyRMS, List.getD_eq_getElem?_getD, List.getElem?_range hi]

theorem applyRMS_getD_of_le (n : ℕ) (sel : List (ℚ × List (Option ℝ))) (i : ℕ)
    (hi : n ≤ i) :
    (applyRMS n sel).getD i none = none := by
  refine List.getD_eq_default _ _ ?_
  simpa [applyRMS] using hi

theorem dfrms_nil : dfrms [] = some 0 := by
  have h0 : trapz [] = some 0 := rfl
  rw [dfrms, h0, npSqrt, Option.some_bind, if_neg (lt_irrefl (0 : ℝ)), Real.sqrt_zero]

theorem applyRMS_nil (n : ℕ) : applyRMS n [] = List.replicate n (some 0) := by
  simp [applyRMS, dfrms_nil, List.map_const']

theorem dropnaCols_index (d : Frame) : (dropnaCols d).index = d.index := rfl

theorem df_rms_single (d : Frame) (p : ℚ × ℚ) (output : String) :
    df_rms d [p] output
      = Except.ok
          { index := (dropnaCols d).index
            bands := [(labelOf p,
              bandSeries (dropnaCols d).index.length (dropnaCols d).cols p.1 p.2 output)] } :=
  rfl

theorem bandSeries_sel_nil (n : ℕ) (cols : List (ℚ × List (Option ℝ)))
    (fmin fmax : ℚ) (output : String)
    (h : ∀ c ∈ cols, ¬(fmin ≤ c.1 ∧ c.1 ≤ fmax)) :
    bandSeries n cols fmin fmax output = List.replicate n (some 0) := by
  have hf : cols.filter (fun c => decide (fmin ≤ c.1 ∧ c.1 ≤ fmax)) = [] := by
    rw [List.filter_eq_nil_iff]
    intro c hc
    simpa using h c hc
  simp only [bandSeries, hf, List.map_nil, applyRMS_nil, ite_self]

/-- C7: for every PSD table, band list and output unit, `df_rms` returns a
table whose row index is exactly the input's row index: `dropna(axis=1)` only
touches columns and the result is built with `index=d.index`, so no row is
resampled, reordered or dropped. -/
theorem c7_row_index_preserved (d : Frame) (freqs : List (ℚ × ℚ))
    (output : String) :
    ∃ bs, df_rms d freqs output = Except.ok { index := d.index, bands := bs } :=
  ⟨_, rfl⟩

/-- C8: a column that is missing in every row is dropped by the initial
`dropna(axis=1, how='all')`, so `df_rms` on a table containing such a column
(anywhere, hence also inside any requested band) returns exactly what it
returns on the table without that column. -/
theorem c8_all_missing_column_dropped (idx : List String)
    (pre post : List (ℚ × List (Option ℝ))) (c : ℚ × List (Option ℝ))
    (freqs : List (ℚ × ℚ)) (output : String)
    (hc : ∀ v ∈ c.2, v = none) :
    df_rms ⟨idx, pre ++ c :: post⟩ freqs output
      = df_rms ⟨idx, pre ++ post⟩ freqs output := by
  have hkeep : (c.2.any Option.isSome) = false := by
    simp only [List.any_eq_false]
    intro v hv
    simp [hc v hv]
  have hdrop : dropnaCols ⟨idx, pre ++ c :: post⟩ = dropnaCols ⟨idx, pre ++ post⟩ := by
    simp [dropnaCols, List.filter_append, List.filter_cons, hkeep]
  simp only [df_rms, hdrop]

/-- Witness for C8 at a concrete input: a table with an all-missing column at
1.5 Hz, inside the requested band (1.0, 2.0). -/
theorem c8_witness :
    df_rms ⟨["t0"], [((1 : ℚ), [some (0 : ℝ)]), ((3/2 : ℚ), [(none : Option ℝ)]),
        ((2 : ℚ), [some (0 : ℝ)])]⟩ [((1 : ℚ), (2 : ℚ))] "ACC"
      = df_rms ⟨["t0"], [((1 : ℚ), [some (0 : ℝ)]), ((2 : ℚ), [some (0 : ℝ)])]⟩
          [((1 : ℚ), (2 : ℚ))] "ACC" :=
  c8_all_missing_column_dropped ["t0"] [((1 : ℚ), [some (0 : ℝ)])]
    [((2 : ℚ), [some (0 : ℝ)])] ((3/2 : ℚ), [(none : Option ℝ)])
    [((1 : ℚ), (2 : ℚ))] "ACC" (by simp)

theorem bandSeries_zero_rows (cols : List (ℚ × List (Option ℝ))) (fmin fmax : ℚ)
    (output : String) : bandSeries 0 cols fmin fmax output = [] := by
  simp only [bandSeries, applyRMS, List.range_zero, List.map_nil, ite_self]

theorem dictInsert_forall_values {α : Type} (m : List (String × α)) (k : String)
    (v : α) (P : α → Prop) (hm : ∀ p ∈ m, P p.2) (hv : P v) :
    ∀ p ∈ dictInsert m k v, P p.2 := by
  intro p hp
  rw [dictInsert] at hp
  by_cases hk : (m.any fun q => q.1 == k) = true
  · rw [if_pos hk] at hp
    obtain ⟨q, hq, hqe⟩ := List.mem_map.1 hp
    by_cases h : q.1 = k
    · rw [if_pos h] at hqe
      rw [← hqe]
      exact hv
    · rw [if_neg h] at hqe
      rw [← hqe]
      exact hm q hq
  · rw [if_neg hk] at hp
    rcases List.mem_append.1 hp with h | h
    · exact hm p h
    · rw [List.mem_singleton.1 h]
      exact hv

theorem foldl_dictInsert_forall_values {α : Type} (g : ℚ × ℚ → α)
    (freqs : List (ℚ × ℚ)) (m : List (String × α)) (P : α → Prop)
    (hm : ∀ p ∈ m, P p.2) (hg : ∀ q, P (g q)) :
    ∀ p ∈ freqs.foldl (fun m q => dictInsert m (labelOf q) (g q)) m, P p.2 := by
  induction freqs generalizing m with
  | nil => simpa using hm
  | cons q t ih =>
    intro p hp
    exact ih _ (dictInsert_forall_values _ _ _ _ hm (hg q)) p hp

/-- C10: the `output` argument of `df_rms` is never validated: the call
returns normally for every string; every value other than `"ACC"` and `"VEL"`
(including the notebook's own `"DISP"`, the spec's `"DISPLACEMENT"`, or any
misspelling) takes the displacement branch; and a call without the argument
uses the signature's default `"VEL"`. -/
theorem c10_output_unit_unvalidated (d : Frame) (freqs : List (ℚ × ℚ))
    (s : String) :
    (∃ r, df_rms d freqs s = Except.ok r)
      ∧ (s ≠ "ACC" → s ≠ "VEL" → df_rms d freqs s = df_rms d freqs "DISP")
      ∧ df_rmsDefault d freqs = df_rms d freqs "VEL" := by
  refine ⟨⟨_, rfl⟩, ?_, rfl⟩
  intro h1 h2
  have hfun : (fun (m : List (String × List (Option ℝ))) (p : ℚ × ℚ) =>
        dictInsert m (labelOf p)
          (bandSeries (dropnaCols d).index.length (dropnaCols d).cols p.1 p.2 s))
      = fun m p =>
        dictInsert m (labelOf p)
          (bandSeries (dropnaCols d).index.length (dropnaCols d).cols p.1 p.2 "DISP") := by
    funext m p
    rw [bandSeries_other_eq _ _ _ _ s h1 h2,
      bandSeries_other_eq _ _ _ _ "DISP" (by decide) (by decide)]
  simp only [df_rms, hfun]

/-- Witness for C10: the notebook itself calls `df_rms(..., output="DISP")`;
`"DISPLACEMENT"` is likewise unrecognized and lands on the same branch. -/
theorem c10_witness :
    df_rms ⟨["t0"], [((1 : ℚ), [some (0 : ℝ)])]⟩ [((1 : ℚ), (2 : ℚ))] "DISPLACEMENT"
      = df_rms ⟨["t0"], [((1 : ℚ), [some (0 : ℝ)])]⟩ [((1 : ℚ), (2 : ℚ))] "DISP" :=
  (c10_output_unit_unvalidated _ _ "DISPLACEMENT").2.1 (by decide) (by decide)


theorem labelOf_eval (fmin fmax : ℚ) (s r : ℤ) (hs : round (fmin * 10) = s)
    (hr : round (fmax * 10) = r) :
    labelOf (fmin, fmax)
      = ((if s < 0 then "-" else "")
          ++ toString (s.natAbs / 10) ++ "." ++ toString (s.natAbs % 10))
        ++ "-"
        ++ ((if r < 0 then "-" else "")
          ++ toString (r.natAbs / 10) ++ "." ++ toString (r.natAbs % 10)) := by
  simp only [labelOf, fmt1, hs, hr]

theorem labelOf_1_2 : labelOf ((1 : ℚ), (2 : ℚ)) = "1.0-2.0" := by
  rw [labelOf_eval 1 2 10 20 (by norm_num [round_eq]) (by norm_num [round_eq])]
  rfl

theorem labelOf_2_1 : labelOf ((2 : ℚ), (1 : ℚ)) = "2.0-1.0" := by
  rw [labelOf_eval 2 1 20 10 (by norm_num [round_eq]) (by norm_num [round_eq])]
  rfl

/-- C2 counterexample: neither an empty band list nor an empty PSD table is
rejected.  With no bands, `df_rms` returns a table with the input's row index
and no columns; with an empty table and one band, it returns an empty series
under that band's label "1.0-2.0".  No error is raised in either case. -/
theorem c2_counterexample_empty_inputs_ok :
    df_rms ⟨["t0"], [((1 : ℚ), [some (0 : ℝ)])]⟩ [] "VEL"
        = Except.ok { index := ["t0"], bands := [] }
      ∧ df_rms ⟨[], []⟩ [((1 : ℚ), (2 : ℚ))] "VEL"
        = Except.ok { index := [], bands := [(labelOf ((1 : ℚ), (2 : ℚ)), [])] }
      ∧ labelOf ((1 : ℚ), (2 : ℚ)) = "1.0-2.0" :=
  ⟨rfl, rfl, labelOf_1_2⟩

/-- C2 amended: `df_rms` performs no call-time validation of empty inputs.
An empty band list yields a result table with the original row index and no
columns; an empty PSD table (no rows) yields one empty series per requested
band.  In both cases the call returns normally instead of raising. -/
theorem c2_amended_no_empty_input_rejection (d : Frame) (freqs : List (ℚ × ℚ))
    (output : String) :
    (freqs = [] → df_rms d freqs output = Except.ok { index := d.index, bands := [] })
      ∧ (d.index = [] →
          ∃ r, df_rms d freqs output = Except.ok r ∧ r.index = []
            ∧ ∀ p ∈ r.bands, p.2 = []) := by
  constructor
  · rintro rfl
    rfl
  · intro hidx
    refine ⟨_, rfl, hidx, ?_⟩
    have hn : (dropnaCols d).index.length = 0 := by
      rw [dropnaCols_index, hidx]
      rfl
    refine foldl_dictInsert_forall_values
      (fun q => bandSeries (dropnaCols d).index.length (dropnaCols d).cols q.1 q.2 output)
      freqs [] (fun l => l = []) (by simp) ?_
    intro q
    rw [hn]
    exact bandSeries_zero_rows _ _ _ _

/-- Witness for the amended C2 at concrete inputs: a one-row table with no
bands, and an empty table with one band. -/
theorem c2_amended_witness :
    df_rms ⟨["t0"], [((1 : ℚ), [some (0 : ℝ)])]⟩ [] "VEL"
        = Except.ok { index := ["t0"], bands := [] }
      ∧ ∃ r, df_rms ⟨[], []⟩ [((1 : ℚ), (2 : ℚ))] "VEL" = Except.ok r
          ∧ r.index = [] ∧ ∀ p ∈ r.bands, p.2 = [] :=
  ⟨(c2_amended_no_empty_input_rejection ⟨["t0"], [((1 : ℚ), [some (0 : ℝ)])]⟩ [] "VEL").1 rfl,
   (c2_amended_no_empty_input_rejection ⟨[], []⟩ [((1 : ℚ), (2 : ℚ))] "VEL").2 rfl⟩

/-- C3 counterexample: the inverted band (fmin, fmax) = (2, 1) is not
rejected at call time; `df_rms` returns normally, storing a computed all-zero
series under the label "2.0-1.0". -/
theorem c3_counterexample_inverted_band_ok :
    df_rms ⟨["t0"], [((1 : ℚ), [some (0 : ℝ)]), ((2 : ℚ), [some (0 : ℝ)])]⟩
        [((2 : ℚ), (1 : ℚ))] "ACC"
        = Except.ok { index := ["t0"], bands := [(labelOf ((2 : ℚ), (1 : ℚ)), [some 0])] }
      ∧ labelOf ((2 : ℚ), (1 : ℚ)) = "2.0-1.0" := by
  refine ⟨?_, labelOf_2_1⟩
  rw [df_rms_single]
  have hb := bandSeries_sel_nil 1
    [((1 : ℚ), [some (0 : ℝ)]), ((2 : ℚ), [some (0 : ℝ)])] 2 1 "ACC" (by decide)
  exact congrArg (fun s => (Except.ok
    { index := ["t0"], bands := [(labelOf ((2 : ℚ), (1 : ℚ)), s)] } : Except String RmsFrame)) hb

/-- C3 amended: `df_rms` does not validate `fmin >= fmax`.  A band with
`fmax < fmin` selects no column, and the call returns normally with an
all-zero series (the square root of an empty trapezoidal integral, 0.0) for
that band, instead of raising. -/
theorem c3_amended_inverted_band_zero_series (d : Frame) (fmin fmax : ℚ)
    (output : String) (h : fmax < fmin) :
    df_rms d [(fmin, fmax)] output
      = Except.ok
          { index := d.index
            bands := [(labelOf (fmin, fmax), List.replicate d.index.length (some 0))] } := by
  rw [df_rms_single]
  have hb : bandSeries (dropnaCols d).index.length (dropnaCols d).cols fmin fmax output
      = List.replicate (dropnaCols d).index.length (some 0) :=
    bandSeries_sel_nil _ _ _ _ _ (fun c _ hand => absurd (hand.1.trans hand.2) (not_le.2 h))
  rw [hb, dropnaCols_index]

/-- Witness for the amended C3 at a concrete input. -/
theorem c3_amended_witness :
    df_rms ⟨["t0"], [((1 : ℚ), [some (0 : ℝ)])]⟩ [((2 : ℚ), (1 : ℚ))] "VEL"
      = Except.ok
          { index := ["t0"]
            bands := [(labelOf ((2 : ℚ), (1 : ℚ)), List.replicate 1 (some 0))] } :=
  c3_amended_inverted_band_zero_series ⟨["t0"], [((1 : ℚ), [some (0 : ℝ)])]⟩ 2 1 "VEL"
    (by norm_num)

/-- C4 counterexample: a band whose range contains no frequency column does
not raise, but it also does not produce an empty or all-NaN series: the band
(5, 6) over a table with columns at 1 Hz and 2 Hz yields the series
`[some 0]` — one zero per row, neither empty nor missing. -/
theorem c4_counterexample_empty_selection_zero_series :
    df_rms ⟨["t0"], [((1 : ℚ), [some (0 : ℝ)]), ((2 : ℚ), [some (0 : ℝ)])]⟩
        [((5 : ℚ), (6 : ℚ))] "ACC"
        = Except.ok
            { index := ["t0"], bands := [(labelOf ((5 : ℚ), (6 : ℚ)), [some 0])] }
      ∧ ([some (0 : ℝ)] ≠ ([] : List (Option ℝ)))
      ∧ (some (0 : ℝ) ≠ none) := by
  refine ⟨?_, by simp, by simp⟩
  rw [df_rms_single]
  have hb := bandSeries_sel_nil 1
    [((1 : ℚ), [some (0 : ℝ)]), ((2 : ℚ), [some (0 : ℝ)])] 5 6 "ACC" (by decide)
  exact congrArg (fun s => (Except.ok
    { index := ["t0"], bands := [(labelOf ((5 : ℚ), (6 : ℚ)), s)] } : Except String RmsFrame)) hb

/-- C4 amended: a band selecting no column of the cleaned table yields an
all-zero series (`np.trapz` of an empty selection is 0.0 on every row and
`sqrt(0.0) = 0.0`), not an empty or all-NaN one; the call does not raise, and
in a two-band call the other band's column is still computed normally. -/
theorem c4_amended_empty_selection_all_zero (d : Frame) (fmin fmax : ℚ)
    (output : String)
    (h : ∀ c ∈ (dropnaCols d).cols, ¬(fmin ≤ c.1 ∧ c.1 ≤ fmax)) :
    bandSeries d.index.length (dropnaCols d).cols fmin fmax output
        = List.replicate d.index.length (some 0)
      ∧ df_rms d [(fmin, fmax)] output
        = Except.ok
            { index := d.index
              bands := [(labelOf (fmin, fmax), List.replicate d.index.length (some 0))] }
      ∧ ∀ p : ℚ × ℚ, labelOf p ≠ labelOf (fmin, fmax) →
          df_rms d [p, (fmin, fmax)] output
            = Except.ok
                { index := d.index
                  bands := [(labelOf p,
                      bandSeries d.index.length (dropnaCols d).cols p.1 p.2 output),
                    (labelOf (fmin, fmax), List.replicate d.index.length (some 0))] } := by
  have hb : bandSeries d.index.length (dropnaCols d).cols fmin fmax output
      = List.replicate d.index.length (some 0) := bandSeries_sel_nil _ _ _ _ _ h
  refine ⟨hb, ?_, ?_⟩
  · rw [df_rms_single, dropnaCols_index, hb]
  · intro p hp
    have hne : ((labelOf p == labelOf (fmin, fmax)) || false) = false := by
      simp [hp]
    simp only [df_rms, List.foldl_cons, List.foldl_nil, dropnaCols_index]
    rw [show dictInsert ([] : List (String × List (Option ℝ))) (labelOf p)
        (bandSeries d.index.length (dropnaCols d).cols p.1 p.2 output)
      = [(labelOf p, bandSeries d.index.length (dropnaCols d).cols p.1 p.2 output)] from rfl]
    rw [dictInsert, List.any_cons, List.any_nil, if_neg (by simp [hp]), hb]
    rfl

/-- Witness for the amended C4 at a concrete input: band (5, 6) selects no
column of a table with columns at 1 Hz and 2 Hz. -/
theorem c4_amended_witness :
    bandSeries 1
        (dropnaCols ⟨["t0"], [((1 : ℚ), [some (0 : ℝ)]), ((2 : ℚ), [some (0 : ℝ)])]⟩).cols
        5 6 "ACC"
      = List.replicate 1 (some 0) :=
  (c4_amended_empty_selection_all_zero
    ⟨["t0"], [((1 : ℚ), [some (0 : ℝ)]), ((2 : ℚ), [some (0 : ℝ)])]⟩ 5 6 "ACC"
    (by decide)).1

/-! ### C1: the band algorithm against the specification's formula -/

theorem slice_map_disp (sel : List (ℚ × List (Option ℝ))) (i : ℕ) :
    ((((sel.map ampCol).map divW2).map divW2).map fun c => (c.1, c.2.getD i none))
      = sel.map fun c => (c.1, (c.2.getD i none).map fun b =>
          (10 : ℝ) ^ (b / 10) / ((2 * Real.pi * (c.1 : ℝ)) ^ 2) ^ 2) := by
  simp only [List.map_map]
  refine List.map_congr_left ?_
  intro c _
  simp only [Function.comp, ampCol, divW2, getD_map_optionMap, Option.map_map]
  refine congrArg (fun o => ((c.1 : ℚ), o)) ?_
  refine congrArg (fun g => Option.map g (c.2.getD i none)) ?_
  funext b
  rw [Function.comp_apply, Function.comp_apply, div_div, ← pow_two]

theorem slice_map_vel (sel : List (ℚ × List (Option ℝ))) (i : ℕ) :
    (((sel.map ampCol).map divW2).map fun c => (c.1, c.2.getD i none))
      = sel.map fun c => (c.1, (c.2.getD i none).map fun b =>
          (10 : ℝ) ^ (b / 10) / ((2 * Real.pi * (c.1 : ℝ)) ^ 2) ^ 1) := by
  simp only [List.map_map]
  refine List.map_congr_left ?_
  intro c _
  simp only [Function.comp, ampCol, divW2, getD_map_optionMap, Option.map_map]
  refine congrArg (fun o => ((c.1 : ℚ), o)) ?_
  refine congrArg (fun g => Option.map g (c.2.getD i none)) ?_
  funext b
  rw [Function.comp_apply, pow_one]

theorem slice_map_acc (sel : List (ℚ × List (Option ℝ))) (i : ℕ) :
    ((sel.map ampCol).map fun c => (c.1, c.2.getD i none))
      = sel.map fun c => (c.1, (c.2.getD i none).map fun b =>
          (10 : ℝ) ^ (b / 10) / ((2 * Real.pi * (c.1 : ℝ)) ^ 2) ^ 0) := by
  simp only [List.map_map]
  refine List.map_congr_left ?_
  intro c _
  simp only [Function.comp, ampCol, getD_map_optionMap, pow_zero, div_one]

/-- C1: for every PSD table and band, the series `df_rms` computes is exactly
the specification's algorithm: select the columns with `fmin ≤ f ≤ fmax`,
convert decibels to linear power with `10^(db/10)`, divide by `(2πf)^2` twice
for DISPLACEMENT, once for VELOCITY and not at all for ACCELERATION, then per
row integrate with the trapezoidal rule over the selected frequencies and take
the square root; and the single-band DISPLACEMENT output of `df_rms` is that
series computed on the cleaned table, under the band's label.  (The equalities
hold for every table, in particular for every table with ascending frequency
columns.) -/
theorem c1_band_series_matches_spec (d : Frame) (fmin fmax : ℚ) :
    bandSeries d.index.length d.cols fmin fmax "DISP" = specSeries d fmin fmax 2
      ∧ bandSeries d.index.length d.cols fmin fmax "VEL" = specSeries d fmin fmax 1
      ∧ bandSeries d.index.length d.cols fmin fmax "ACC" = specSeries d fmin fmax 0
      ∧ df_rms d [(fmin, fmax)] "DISP"
          = Except.ok
              { index := d.index
                bands := [(labelOf (fmin, fmax), specSeries (dropnaCols d) fmin fmax 2)] } := by
  have hdisp : ∀ (e : Frame), bandSeries e.index.length e.cols fmin fmax "DISP"
      = specSeries e fmin fmax 2 := by
    intro e
    rw [bandSeries_other_eq _ _ _ _ "DISP" (by decide) (by decide)]
    simp only [specSeries, applyRMS, dfrms]
    refine List.map_congr_left ?_
    intro i _
    rw [slice_map_disp]
  refine ⟨hdisp d, ?_, ?_, ?_⟩
  · rw [bandSeries_vel_eq]
    simp only [specSeries, applyRMS, dfrms]
    refine List.map_congr_left ?_
    intro i _
    rw [slice_map_vel]
  · rw [bandSeries_acc_eq]
    simp only [specSeries, applyRMS, dfrms]
    refine List.map_congr_left ?_
    intro i _
    rw [slice_map_acc]
  · rw [df_rms_single]
    rw [show (dropnaCols d).index.length = (dropnaCols d).index.length from rfl]
    rw [hdisp (dropnaCols d), dropnaCols_index]

/-! ### C9: Python dict semantics of the RMS accumulator -/

theorem lookup_cons {α : Type} (p : String × α) (l : List (String × α)) (k : String) :
    (p :: l).lookup k = if k = p.1 then some p.2 else l.lookup k := by
  rcases p with ⟨x, y⟩
  by_cases h : k = x
  · subst h
    simp [List.lookup]
  · have hb : (k == x) = false := by simp [h]
    simp [List.lookup, hb, h]

theorem lookup_map_replace {α : Type} (m : List (String × α)) (k' k : String)
    (v : α) (h : k' ≠ k) :
    (m.map fun p => if p.1 = k' then (k', v) else p).lookup k = m.lookup k := by
  induction m with
  | nil => rfl
  | cons a t ih =>
    rw [List.map_cons, lookup_cons, lookup_cons, ih]
    by_cases ha : a.1 = k'
    · rw [if_pos ha]
      have hk : ¬(k = (k', v).1) := fun hkk => h hkk.symm
      rw [if_neg hk, if_neg (fun hkk : k = a.1 => h ((hkk ▸ ha) ▸ rfl))]
  -- when a.1 = k' the key k cannot match either form since k ≠ k' = a.1
    · rw [if_neg ha]

theorem lookup_dictInsert {α : Type} (m : List (String × α)) (k' k : String)
    (v : α) :
    (dictInsert m k' v).lookup k = if k' = k then some v else m.lookup k := by
  by_cases hmem : (m.any fun p => p.1 == k') = true
  · rw [dictInsert, if_pos hmem]
    by_cases hk : k' = k
    · subst hk
      rw [if_pos rfl]
      induction m with
      | nil => simp at hmem
      | cons a t ih =>
        rw [List.map_cons, lookup_cons]
        by_cases ha : a.1 = k'
        · rw [if_pos ha]
          simp
        · rw [if_neg ha, if_neg (fun hkk : k' = a.1 => ha hkk.symm)]
          refine ih ?_
          rw [List.any_cons] at hmem
          have hbeq : (a.1 == k') = false := by simp [ha]
          simpa [hbeq] using hmem
    · rw [if_neg hk]
      exact lookup_map_replace m k' k v (fun hkk => hk hkk)
  · rw [dictInsert, if_neg hmem]
    have hnk : ∀ p ∈ m, p.1 ≠ k' := by
      intro p hp hpk
      exact hmem (List.any_eq_true.2 ⟨p, hp, by simp [hpk]⟩)
    induction m with
    | nil =>
      rw [List.nil_append, lookup_cons]
      by_cases hk : k' = k
      · subst hk
        simp
      · simp [hk, Ne.symm hk]
    | cons a t ih =>
      rw [List.cons_append, lookup_cons, lookup_cons]
      by_cases hak : k = a.1
      · have hk : k' ≠ k := fun hkk => hnk a (List.mem_cons_self a t) (hkk.trans hak).symm
        rw [if_pos hak, if_neg hk, if_pos hak]
      · rw [if_neg hak, if_neg hak]
        refine ih ?_ ?_
        · intro hany
          refine hmem ?_
          rw [List.any_cons, hany]
          simp
        · intro p hp
          exact hnk p (List.mem_cons_of_mem a hp)

theorem dictInsert_keys {α : Type} (m : List (String × α)) (k : String) (v : α) :
    (dictInsert m k v).map Prod.fst
      = if (m.any fun p => p.1 == k) = true then m.map Prod.fst
        else m.map Prod.fst ++ [k] := by
  by_cases hmem : (m.any fun p => p.1 == k) = true
  · rw [dictInsert, if_pos hmem, if_pos hmem, List.map_map]
    refine List.map_congr_left ?_
    intro p _
    by_cases hp : p.1 = k
    · simp [hp]
    · simp [hp]
  · rw [dictInsert, if_neg hmem, if_neg hmem, List.map_append]
    rfl

theorem dictInsert_keys_nodup {α : Type} (m : List (String × α)) (k : String)
    (v : α) (h : (m.map Prod.fst).Nodup) :
    ((dictInsert m k v).map Prod.fst).Nodup := by
  rw [dictInsert_keys]
  by_cases hmem : (m.any fun p => p.1 == k) = true
  · rw [if_pos hmem]
    exact h
  · rw [if_neg hmem]
    have hk : k ∉ m.map Prod.fst := by
      intro hkm
      obtain ⟨p, hp, hpk⟩ := List.mem_map.1 hkm
      exact hmem (List.any_eq_true.2 ⟨p, hp, by simp [hpk]⟩)
    simp [List.nodup_append, h, hk]

theorem find?_append_cases {α : Type} (l1 l2 : List α) (p : α → Bool) :
    (l1 ++ l2).find? p = (l1.find? p).elim (l2.find? p) some := by
  induction l1 with
  | nil => simp
  | cons a t ih =>
    by_cases hpa : p a = true
    · simp [List.find?_cons_of_pos _ hpa]
    · have hpa' : p a = false := by simpa using hpa
      simp [List.find?, hpa', ih]

theorem foldl_dict_lookup {α : Type} (g : ℚ × ℚ → α) (freqs : List (ℚ × ℚ))
    (m : List (String × α)) (k : String) :
    (freqs.foldl (fun acc b => dictInsert acc (labelOf b) (g b)) m).lookup k
      = (freqs.reverse.find? fun b => labelOf b == k).elim (m.lookup k)
          (fun b => some (g b)) := by
  induction freqs generalizing m with
  | nil => simp
  | cons b t ih =>
    rw [List.foldl_cons, ih, List.reverse_cons, find?_append_cases]
    cases hf : t.reverse.find? (fun b => labelOf b == k) with
    | some b' => simp
    | none =>
      simp only [Option.elim]
      rw [lookup_dictInsert]
      by_cases hb : labelOf b = k
      · have hb' : (labelOf b == k) = true := by simp [hb]
        have h1 : ([b].find? fun b => labelOf b == k) = some b := by
          simp [List.find?, hb']
        rw [if_pos hb, h1]
      · have hb' : (labelOf b == k) = false := by simp [hb]
        have h1 : ([b].find? fun b => labelOf b == k) = none := by
          simp [List.find?, hb']
        rw [if_neg hb, h1]

theorem foldl_dict_keys_nodup {α : Type} (g : ℚ × ℚ → α) (freqs : List (ℚ × ℚ))
    (m : List (String × α)) (hm : (m.map Prod.fst).Nodup) :
    ((freqs.foldl (fun acc b => dictInsert acc (labelOf b) (g b)) m).map Prod.fst).Nodup := by
  induction freqs generalizing m with
  | nil => simpa using hm
  | cons b t ih => exact ih _ (dictInsert_keys_nodup _ _ _ hm)

theorem lookup_some_mem_keys {α : Type} (l : List (String × α)) (k : String)
    (h : (l.lookup k).isSome) : k ∈ l.map Prod.fst := by
  induction l with
  | nil => simp [List.lookup] at h
  | cons a t ih =>
    rw [lookup_cons] at h
    by_cases hk : k = a.1
    · simp [hk]
    · rw [if_neg hk] at h
      simp [ih h]

/-- C9: when two distinct bands format to the same label, the Python dict
`RMS` keeps a single entry for that label (labels are unique keys in the
result), and its value is the series of the band supplied last among those
with that label: each later assignment silently overwrites the earlier one. -/
theorem c9_duplicate_labels_overwrite (d : Frame) (output : String)
    (freqs : List (ℚ × ℚ)) (p q : ℚ × ℚ)
    (hp : p ∈ freqs) (hq : q ∈ freqs) (hpq : p ≠ q)
    (hlab : labelOf p = labelOf q) :
    ∃ r lb, df_rms d freqs output = Except.ok r
      ∧ (r.bands.map Prod.fst).Nodup
      ∧ labelOf p ∈ r.bands.map Prod.fst
      ∧ freqs.reverse.find? (fun b => labelOf b == labelOf p) = some lb
      ∧ r.bands.lookup (labelOf p)
          = some (bandSeries (dropnaCols d).index.length (dropnaCols d).cols
              lb.1 lb.2 output) := by
  have hsome : (freqs.reverse.find? fun b => labelOf b == labelOf p).isSome :=
    List.find?_isSome.mpr ⟨p, List.mem_reverse.mpr hp, by simp⟩
  obtain ⟨lb, hlb⟩ := Option.isSome_iff_exists.mp hsome
  have hlook : (freqs.foldl (fun acc b => dictInsert acc (labelOf b)
        (bandSeries (dropnaCols d).index.length (dropnaCols d).cols b.1 b.2 output))
        []).lookup (labelOf p)
      = some (bandSeries (dropnaCols d).index.length (dropnaCols d).cols
          lb.1 lb.2 output) := by
    rw [foldl_dict_lookup
      (fun b => bandSeries (dropnaCols d).index.length (dropnaCols d).cols b.1 b.2 output)
      freqs [] (labelOf p), hlb]
    rfl
  refine ⟨_, lb, rfl, ?_, ?_, hlb, hlook⟩
  · exact foldl_dict_keys_nodup _ _ _ (by simp)
  · refine lookup_some_mem_keys _ _ ?_
    rw [hlook]
    rfl

/-- Witness for C9: the distinct bands (1, 2) and (1.04, 2.04) both format to
the label "1.0-2.0". -/
theorem c9_witness :
    ∃ r lb, df_rms ⟨["t0"], [((1 : ℚ), [some (0 : ℝ)])]⟩
        [((1 : ℚ), (2 : ℚ)), ((26/25 : ℚ), (51/25 : ℚ))] "VEL" = Except.ok r
      ∧ (r.bands.map Prod.fst).Nodup
      ∧ labelOf ((1 : ℚ), (2 : ℚ)) ∈ r.bands.map Prod.fst
      ∧ [((1 : ℚ), (2 : ℚ)), ((26/25 : ℚ), (51/25 : ℚ))].reverse.find?
          (fun b => labelOf b == labelOf ((1 : ℚ), (2 : ℚ))) = some lb
      ∧ r.bands.lookup (labelOf ((1 : ℚ), (2 : ℚ)))
          = some (bandSeries
              (dropnaCols ⟨["t0"], [((1 : ℚ), [some (0 : ℝ)])]⟩).index.length
              (dropnaCols ⟨["t0"], [((1 : ℚ), [some (0 : ℝ)])]⟩).cols
              lb.1 lb.2 "VEL") :=
  c9_duplicate_labels_overwrite ⟨["t0"], [((1 : ℚ), [some (0 : ℝ)])]⟩ "VEL"
    [((1 : ℚ), (2 : ℚ)), ((26/25 : ℚ), (51/25 : ℚ))]
    ((1 : ℚ), (2 : ℚ)) ((26/25 : ℚ), (51/25 : ℚ))
    (List.mem_cons_self _ _)
    (List.mem_cons_of_mem _ (List.mem_cons_self _ _))
    (by norm_num [Prod.ext_iff])
    (by rw [labelOf_eval 1 2 10 20 (by norm_num [round_eq]) (by norm_num [round_eq]),
        labelOf_eval (26/25) (51/25) 10 20 (by norm_num [round_eq])
          (by norm_num [round_eq])])

/-! ### Concrete evaluation helpers -/

theorem npSqrt_some_of_nonneg (v : ℝ) (h : 0 ≤ v) :
    npSqrt (some v) = some (Real.sqrt v) := by
  simp [npSqrt, not_lt.2 h]

theorem npSqrt_some_of_neg (v : ℝ) (h : v < 0) : npSqrt (some v) = none := by
  simp [npSqrt, h]

theorem trapz_pair (x1 x2 : ℚ) (a b : ℝ) :
    trapz [(x1, some a), (x2, some b)]
      = some (((x2 : ℝ) - (x1 : ℝ)) * (a + b) / 2 + 0) := rfl

theorem trapz_triple (x1 x2 x3 : ℚ) (a b c : ℝ) :
    trapz [(x1, some a), (x2, some b), (x3, some c)]
      = some (((x2 : ℝ) - (x1 : ℝ)) * (a + b) / 2
          + (((x3 : ℝ) - (x2 : ℝ)) * (b + c) / 2 + 0)) := rfl

theorem applyRMS_one (sel : List (ℚ × List (Option ℝ))) :
    applyRMS 1 sel = [dfrms (sel.map fun c => (c.1, c.2.getD 0 none))] := by
  have h1 : List.range 1 = [0] := rfl
  simp [applyRMS, h1]

theorem eval_sorted_acc :
    bandSeries 1 [((1 : ℚ), [some (0 : ℝ)]), ((2 : ℚ), [some (0 : ℝ)])] 1 2 "ACC"
      = [some 1] := by
  rw [bandSeries_acc_eq]
  have hfil : ([((1 : ℚ), [some (0 : ℝ)]), ((2 : ℚ), [some (0 : ℝ)])].filter
      fun c => decide ((1 : ℚ) ≤ c.1 ∧ c.1 ≤ 2))
      = [((1 : ℚ), [some (0 : ℝ)]), ((2 : ℚ), [some (0 : ℝ)])] := by
    norm_num [List.filter_cons]
  rw [hfil]
  rw [show ([((1 : ℚ), [some (0 : ℝ)]), ((2 : ℚ), [some (0 : ℝ)])].map ampCol)
      = [((1 : ℚ), [some ((10 : ℝ) ^ ((0 : ℝ) / 10))]),
         ((2 : ℚ), [some ((10 : ℝ) ^ ((0 : ℝ) / 10))])] from by simp [ampCol]]
  rw [applyRMS_one]
  have hamp : (10 : ℝ) ^ ((0 : ℝ) / 10) = 1 := by
    norm_num
  rw [show ([((1 : ℚ), [some ((10 : ℝ) ^ ((0 : ℝ) / 10))]),
      ((2 : ℚ), [some ((10 : ℝ) ^ ((0 : ℝ) / 10))])].map fun c => (c.1, c.2.getD 0 none))
      = [((1 : ℚ), some ((1 : ℝ))), ((2 : ℚ), some (1 : ℝ))] from by simp [hamp]]
  rw [dfrms, trapz_pair]
  have hv : (((2 : ℚ) : ℝ) - ((1 : ℚ) : ℝ)) * ((1 : ℝ) + 1) / 2 + 0 = 1 := by
    norm_num
  rw [hv, npSqrt_some_of_nonneg _ (by norm_num), Real.sqrt_one]

theorem eval_reversed_acc :
    bandSeries 1 [((2 : ℚ), [some (0 : ℝ)]), ((1 : ℚ), [some (0 : ℝ)])] 1 2 "ACC"
      = [none] := by
  rw [bandSeries_acc_eq]
  have hfil : ([((2 : ℚ), [some (0 : ℝ)]), ((1 : ℚ), [some (0 : ℝ)])].filter
      fun c => decide ((1 : ℚ) ≤ c.1 ∧ c.1 ≤ 2))
      = [((2 : ℚ), [some (0 : ℝ)]), ((1 : ℚ), [some (0 : ℝ)])] := by
    norm_num [List.filter_cons]
  rw [hfil]
  rw [show ([((2 : ℚ), [some (0 : ℝ)]), ((1 : ℚ), [some (0 : ℝ)])].map ampCol)
      = [((2 : ℚ), [some ((10 : ℝ) ^ ((0 : ℝ) / 10))]),
         ((1 : ℚ), [some ((10 : ℝ) ^ ((0 : ℝ) / 10))])] from by simp [ampCol]]
  rw [applyRMS_one]
  have hamp : (10 : ℝ) ^ ((0 : ℝ) / 10) = 1 := by
    norm_num
  rw [show ([((2 : ℚ), [some ((10 : ℝ) ^ ((0 : ℝ) / 10))]),
      ((1 : ℚ), [some ((10 : ℝ) ^ ((0 : ℝ) / 10))])].map fun c => (c.1, c.2.getD 0 none))
      = [((2 : ℚ), some ((1 : ℝ))), ((1 : ℚ), some (1 : ℝ))] from by simp [hamp]]
  rw [dfrms, trapz_pair]
  have hv : (((1 : ℚ) : ℝ) - ((2 : ℚ) : ℝ)) * ((1 : ℝ) + 1) / 2 + 0 = -1 := by
    norm_num
  rw [hv, npSqrt_some_of_neg _ (by norm_num)]

/-- C6 counterexample: `df_rms` is sensitive to the stored column order.  The
same one-row table with columns {1 Hz: 0 dB, 2 Hz: 0 dB} gives, for the band
(1, 2) in ACC units, the RMS value 1 when the columns are stored ascending,
but NaN when they are stored descending: `np.trapz` follows the stored order,
so the reversed x-axis makes the integral -1 and `np.sqrt(-1)` is NaN. -/
theorem c6_counterexample_column_order_matters :
    ([((2 : ℚ), [some (0 : ℝ)]), ((1 : ℚ), [some (0 : ℝ)])].Perm
        [((1 : ℚ), [some (0 : ℝ)]), ((2 : ℚ), [some (0 : ℝ)])])
      ∧ df_rms ⟨["t0"], [((1 : ℚ), [some (0 : ℝ)]), ((2 : ℚ), [some (0 : ℝ)])]⟩
          [((1 : ℚ), (2 : ℚ))] "ACC"
          = Except.ok { index := ["t0"], bands := [(labelOf ((1 : ℚ), (2 : ℚ)), [some 1])] }
      ∧ df_rms ⟨["t0"], [((2 : ℚ), [some (0 : ℝ)]), ((1 : ℚ), [some (0 : ℝ)])]⟩
          [((1 : ℚ), (2 : ℚ))] "ACC"
          = Except.ok { index := ["t0"], bands := [(labelOf ((1 : ℚ), (2 : ℚ)), [none])] }
      ∧ df_rms ⟨["t0"], [((1 : ℚ), [some (0 : ℝ)]), ((2 : ℚ), [some (0 : ℝ)])]⟩
          [((1 : ℚ), (2 : ℚ))] "ACC"
        ≠ df_rms ⟨["t0"], [((2 : ℚ), [some (0 : ℝ)]), ((1 : ℚ), [some (0 : ℝ)])]⟩
          [((1 : ℚ), (2 : ℚ))] "ACC" := by
  have h1 : df_rms ⟨["t0"], [((1 : ℚ), [some (0 : ℝ)]), ((2 : ℚ), [some (0 : ℝ)])]⟩
      [((1 : ℚ), (2 : ℚ))] "ACC"
      = Except.ok { index := ["t0"], bands := [(labelOf ((1 : ℚ), (2 : ℚ)), [some 1])] } := by
    rw [df_rms_single]
    exact congrArg (fun s => (Except.ok
      { index := ["t0"], bands := [(labelOf ((1 : ℚ), (2 : ℚ)), s)] } : Except String RmsFrame))
      eval_sorted_acc
  have h2 : df_rms ⟨["t0"], [((2 : ℚ), [some (0 : ℝ)]), ((1 : ℚ), [some (0 : ℝ)])]⟩
      [((1 : ℚ), (2 : ℚ))] "ACC"
      = Except.ok { index := ["t0"], bands := [(labelOf ((1 : ℚ), (2 : ℚ)), [none])] } := by
    rw [df_rms_single]
    exact congrArg (fun s => (Except.ok
      { index := ["t0"], bands := [(labelOf ((1 : ℚ), (2 : ℚ)), s)] } : Except String RmsFrame))
      eval_reversed_acc
  refine ⟨List.Perm.swap _ _ _, h1, h2, ?_⟩
  rw [h1, h2]
  intro h
  simp at h

/-- C6 amended: `df_rms` depends on the stored column order (the trapezoidal
rule follows it), so permutation invariance holds only between tables whose
columns are both sorted by frequency: a strictly-sorted permutation of a
strictly-sorted column list is the identity.  The notebook guarantees this by
calling `data.sort_index(axis=1)` before `df_rms`. -/
theorem c6_amended_sorted_permutation_invariance (d1 d2 : Frame)
    (freqs : List (ℚ × ℚ)) (output : String)
    (hidx : d1.index = d2.index)
    (hperm : d1.cols.Perm d2.cols)
    (hs1 : d1.cols.Sorted fun a b => a.1 < b.1)
    (hs2 : d2.cols.Sorted fun a b => a.1 < b.1) :
    df_rms d1 freqs output = df_rms d2 freqs output := by
  haveI : IsAntisymm (ℚ × List (Option ℝ)) (fun a b => a.1 < b.1) :=
    ⟨fun a b hab hba => absurd (hab.trans hba) (lt_irrefl _)⟩
  have hcols : d1.cols = d2.cols := List.eq_of_perm_of_sorted hperm hs1 hs2
  have hd : d1 = d2 := by
    cases d1
    cases d2
    cases hidx
    cases hcols
    rfl
  rw [hd]

/-- Witness for the amended C6 at a concrete sorted table. -/
theorem c6_amended_witness :
    df_rms ⟨["t0"], [((1 : ℚ), [some (0 : ℝ)]), ((2 : ℚ), [some (0 : ℝ)])]⟩
        [((1 : ℚ), (2 : ℚ))] "ACC"
      = df_rms ⟨["t0"], [((1 : ℚ), [some (0 : ℝ)]), ((2 : ℚ), [some (0 : ℝ)])]⟩
        [((1 : ℚ), (2 : ℚ))] "ACC" :=
  c6_amended_sorted_permutation_invariance _ _ [((1 : ℚ), (2 : ℚ))] "ACC" rfl
    (List.Perm.refl _) (by norm_num [List.sorted_cons]) (by norm_num [List.sorted_cons])

/-! ### C5: monotonicity of the trapezoidal integral on sorted frequencies -/

theorem trapz_cons_cons_some {x1 x2 : ℚ} {y1 y2 : Option ℝ}
    {L : List (ℚ × Option ℝ)} {I : ℝ}
    (h : trapz ((x1, y1) :: (x2, y2) :: L) = some I) :
    ∃ a b I', y1 = some a ∧ y2 = some b ∧ trapz ((x2, y2) :: L) = some I'
      ∧ I = ((x2 : ℝ) - (x1 : ℝ)) * (a + b) / 2 + I' := by
  cases y1 with
  | none => simp [trapz] at h
  | some a =>
    cases y2 with
    | none => simp [trapz] at h
    | some b =>
      have hstep : trapz ((x1, some a) :: (x2, some b) :: L)
          = (trapz ((x2, some b) :: L)).bind
              (fun r => some (((x2 : ℝ) - (x1 : ℝ)) * (a + b) / 2 + r)) := rfl
      cases hL : trapz ((x2, some b) :: L) with
      | none =>
        rw [hstep, hL] at h
        exact absurd h (by simp)
      | some I' =>
        rw [hstep, hL, Option.some_bind, Option.some.injEq] at h
        exact ⟨a, b, I', rfl, rfl, rfl, h.symm⟩

theorem trapz_mono {L1 L2 : List (ℚ × Option ℝ)}
    (hrel : List.Forall₂ (fun p q : ℚ × Option ℝ => p.1 = q.1
        ∧ ∀ a b : ℝ, p.2 = some a → q.2 = some b → 0 ≤ a ∧ a ≤ b) L1 L2) :
    (L1.map Prod.fst).Chain' (· ≤ ·) →
    ∀ I J : ℝ, trapz L1 = some I → trapz L2 = some J → I ≤ J := by
  induction hrel with
  | nil =>
    intro _ I J hI hJ
    have hI' : I = 0 := by simpa [trapz] using hI.symm
    have hJ' : J = 0 := by simpa [trapz] using hJ.symm
    rw [hI', hJ']
  | @cons p q L1' L2' hpq hrest ih =>
    intro hchain I J hI hJ
    cases hrest with
    | nil =>
      have hI' : I = 0 := by
        rcases p with ⟨x, y⟩
        simpa [trapz] using hI.symm
      have hJ' : J = 0 := by
        rcases q with ⟨x, y⟩
        simpa [trapz] using hJ.symm
      rw [hI', hJ']
    | @cons p2 q2 t1 t2 hpq2 hrest2 =>
      rcases p with ⟨x1, y1⟩
      rcases p2 with ⟨x2, y2⟩
      rcases q with ⟨z1, w1⟩
      rcases q2 with ⟨z2, w2⟩
      obtain ⟨a1, a2, I', ha1, ha2, hI', hIeq⟩ := trapz_cons_cons_some hI
      obtain ⟨b1, b2, J', hb1, hb2, hJ', hJeq⟩ := trapz_cons_cons_some hJ
      have hx1 : x1 = z1 := hpq.1
      have hx2 : x2 = z2 := hpq2.1
      have h1 := hpq.2 a1 b1 ha1 hb1
      have h2 := hpq2.2 a2 b2 ha2 hb2
      have hxle : (x1 : ℝ) ≤ (x2 : ℝ) := by
        have := (List.chain'_cons.1 hchain).1
        exact_mod_cast this
      have hI'J' : I' ≤ J' := by
        refine ih (List.chain'_cons.1 hchain).2 I' J' hI' ?_
        rw [← hx2]
        rw [← hx2] at hJ'
        exact hJ'
      rw [hIeq, hJeq, ← hx1, ← hx2]
      have hterm : ((x2 : ℝ) - (x1 : ℝ)) * (a1 + a2) / 2
          ≤ ((x2 : ℝ) - (x1 : ℝ)) * (b1 + b2) / 2 := by
        have hw : (0 : ℝ) ≤ (x2 : ℝ) - (x1 : ℝ) := by linarith
        have hab : a1 + a2 ≤ b1 + b2 := add_le_add h1.2 h2.2
        have := mul_le_mul_of_nonneg_left hab hw
        linarith
      linarith

theorem forall₂_map_map {α β : Type} (l : List α) (f g : α → β)
    (R : β → β → Prop) (h : ∀ x ∈ l, R (f x) (g x)) :
    List.Forall₂ R (l.map f) (l.map g) := by
  induction l with
  | nil => exact List.Forall₂.nil
  | cons a t ih =>
    exact List.Forall₂.cons (h a (by simp)) (ih fun x hx => h x (by simp [hx]))

theorem trapz_defined_nonneg (L : List (ℚ × Option ℝ))
    (hchain : (L.map Prod.fst).Chain' (· ≤ ·))
    (hy : ∀ p ∈ L, ∃ v : ℝ, p.2 = some v ∧ 0 ≤ v) :
    ∃ I : ℝ, trapz L = some I ∧ 0 ≤ I := by
  induction L with
  | nil => exact ⟨0, rfl, le_refl 0⟩
  | cons p t ih =>
    cases t with
    | nil => exact ⟨0, rfl, le_refl 0⟩
    | cons q r =>
      obtain ⟨I', hI', hI'0⟩ := ih (List.chain'_cons.1 hchain).2
        (fun p hp => hy p (List.mem_cons_of_mem _ hp))
      obtain ⟨v1, hv1, h01⟩ := hy p (List.mem_cons_self _ _)
      obtain ⟨v2, hv2, h02⟩ := hy q (List.mem_cons_of_mem _ (List.mem_cons_self _ _))
      rcases p with ⟨x1, y1⟩
      rcases q with ⟨x2, y2⟩
      have hv1' : y1 = some v1 := hv1
      have hv2' : y2 = some v2 := hv2
      subst hv1'
      subst hv2'
      refine ⟨((x2 : ℝ) - (x1 : ℝ)) * (v1 + v2) / 2 + I', ?_, ?_⟩
      · have hstep : trapz ((x1, some v1) :: (x2, some v2) :: r)
            = (trapz ((x2, some v2) :: r)).bind
                (fun rr => some (((x2 : ℝ) - (x1 : ℝ)) * (v1 + v2) / 2 + rr)) := rfl
        rw [hstep, hI', Option.some_bind]
      · have hxle : (x1 : ℝ) ≤ (x2 : ℝ) := by
          have := (List.chain'_cons.1 hchain).1
          exact_mod_cast this
        have : (0 : ℝ) ≤ ((x2 : ℝ) - (x1 : ℝ)) * (v1 + v2) / 2 := by
          have := mul_nonneg (by linarith : (0 : ℝ) ≤ (x2 : ℝ) - (x1 : ℝ))
            (by linarith : (0 : ℝ) ≤ v1 + v2)
          linarith
        linarith

theorem npSqrt_eq_some {o : Option ℝ} {a : ℝ} (h : npSqrt o = some a) :
    ∃ v, o = some v ∧ ¬v < 0 ∧ a = Real.sqrt v := by
  cases o with
  | none => simp [npSqrt] at h
  | some v =>
    by_cases hv : v < 0
    · rw [npSqrt_some_of_neg _ hv] at h
      exact absurd h (by simp)
    · rw [npSqrt_some_of_nonneg _ (not_lt.1 hv)] at h
      exact ⟨v, rfl, hv, (Option.some.inj h).symm⟩

theorem amp_div_pow_mono (w D : ℝ) (hD : 1 ≤ D) {k l : ℕ} (hkl : l ≤ k) :
    0 ≤ (10 : ℝ) ^ (w / 10) / D ^ k
      ∧ (10 : ℝ) ^ (w / 10) / D ^ k ≤ (10 : ℝ) ^ (w / 10) / D ^ l := by
  have hpos : (0 : ℝ) < (10 : ℝ) ^ (w / 10) := Real.rpow_pos_of_pos (by norm_num) _
  have hD0 : (0 : ℝ) < D := lt_of_lt_of_le one_pos hD
  refine ⟨div_nonneg hpos.le (pow_nonneg hD0.le _), ?_⟩
  exact div_le_div_of_nonneg_left hpos.le (pow_pos hD0 _) (pow_le_pow_right₀ hD hkl)

theorem one_le_w2sq (f : ℚ) (hf : 1 ≤ f) :
    (1 : ℝ) ≤ (2 * Real.pi * (f : ℝ)) ^ 2 := by
  have hfR : (1 : ℝ) ≤ (f : ℝ) := by exact_mod_cast hf
  have h1 : (3 : ℝ) * (f : ℝ) ≤ Real.pi * (f : ℝ) :=
    mul_le_mul_of_nonneg_right Real.pi_gt_three.le (by linarith)
  have h6 : (6 : ℝ) ≤ 2 * Real.pi * (f : ℝ) := by nlinarith
  nlinarith [h6]

theorem map_fst_rowPts (sel : List (ℚ × List (Option ℝ)))
    (F : ℚ × List (Option ℝ) → Option ℝ) :
    ((sel.map fun c => (c.1, F c)).map Prod.fst) = sel.map Prod.fst := by
  rw [List.map_map]
  rfl

/-- C5 amended: on a table whose frequency columns are stored in ascending
order (as the notebook guarantees with `sort_index(axis=1)`), for every band
whose selected frequencies are all at least 1 Hz and every row whose three
unit results are defined (not NaN), the DISPLACEMENT RMS is at most the
VELOCITY RMS, which is at most the ACCELERATION RMS. -/
theorem c5_amended_unit_monotonicity (n : ℕ) (cols : List (ℚ × List (Option ℝ)))
    (fmin fmax : ℚ) (i : ℕ)
    (hsort : cols.Pairwise fun c c' => c.1 ≤ c'.1)
    (hge1 : ∀ c ∈ cols, fmin ≤ c.1 → c.1 ≤ fmax → 1 ≤ c.1)
    (a b c : ℝ)
    (ha : (bandSeries n cols fmin fmax "DISP").getD i none = some a)
    (hb : (bandSeries n cols fmin fmax "VEL").getD i none = some b)
    (hc : (bandSeries n cols fmin fmax "ACC").getD i none = some c) :
    a ≤ b ∧ b ≤ c := by
  have hi : i < n := by
    by_contra hge
    rw [bandSeries_other_eq _ _ _ _ "DISP" (by decide) (by decide),
      applyRMS_getD_of_le _ _ _ (le_of_not_lt hge)] at ha
    exact Option.noConfusion ha
  rw [bandSeries_other_eq _ _ _ _ "DISP" (by decide) (by decide),
    applyRMS_getD _ _ _ hi] at ha
  rw [bandSeries_vel_eq, applyRMS_getD _ _ _ hi] at hb
  rw [bandSeries_acc_eq, applyRMS_getD _ _ _ hi] at hc
  simp only [dfrms] at ha hb hc
  rw [slice_map_disp] at ha
  rw [slice_map_vel] at hb
  rw [slice_map_acc] at hc
  obtain ⟨Id, hId, hId0, haeq⟩ := npSqrt_eq_some ha
  obtain ⟨Iv, hIv, hIv0, hbeq⟩ := npSqrt_eq_some hb
  obtain ⟨Ia, hIa, hIa0, hceq⟩ := npSqrt_eq_some hc
  have hselsort : ((cols.filter fun c => decide (fmin ≤ c.1 ∧ c.1 ≤ fmax)).map
      Prod.fst).Chain' (· ≤ ·) := by
    refine List.Pairwise.chain' ?_
    rw [List.pairwise_map]
    exact (hsort.filter _)
  have hsel1 : ∀ c ∈ cols.filter fun c => decide (fmin ≤ c.1 ∧ c.1 ≤ fmax),
      1 ≤ c.1 := by
    intro c hcm
    obtain ⟨hcm', hcp⟩ := List.mem_filter.1 hcm
    have hcp' := of_decide_eq_true hcp
    exact hge1 c hcm' hcp'.1 hcp'.2
  have hrel : ∀ (k l : ℕ), l ≤ k →
      List.Forall₂ (fun p q : ℚ × Option ℝ => p.1 = q.1
        ∧ ∀ u v : ℝ, p.2 = some u → q.2 = some v → 0 ≤ u ∧ u ≤ v)
        ((cols.filter fun c => decide (fmin ≤ c.1 ∧ c.1 ≤ fmax)).map fun c =>
          (c.1, (c.2.getD i none).map fun w =>
            (10 : ℝ) ^ (w / 10) / ((2 * Real.pi * (c.1 : ℝ)) ^ 2) ^ k))
        ((cols.filter fun c => decide (fmin ≤ c.1 ∧ c.1 ≤ fmax)).map fun c =>
          (c.1, (c.2.getD i none).map fun w =>
            (10 : ℝ) ^ (w / 10) / ((2 * Real.pi * (c.1 : ℝ)) ^ 2) ^ l)) := by
    intro k l hkl
    refine forall₂_map_map _ _ _ _ ?_
    intro x hx
    refine ⟨rfl, ?_⟩
    intro u v hu hv
    cases hcell : x.2.getD i none with
    | none =>
      rw [hcell] at hu
      exact absurd hu (by simp)
    | some w =>
      rw [hcell] at hu hv
      simp only [Option.map_some', Option.some.injEq] at hu hv
      rw [← hu, ← hv]
      exact amp_div_pow_mono w _ (one_le_w2sq x.1 (hsel1 x hx)) hkl
  have hdv : Id ≤ Iv := trapz_mono (hrel 2 1 (by norm_num))
    (by rw [map_fst_rowPts]; exact hselsort) Id Iv hId hIv
  have hva : Iv ≤ Ia := trapz_mono (hrel 1 0 (by norm_num))
    (by rw [map_fst_rowPts]; exact hselsort) Iv Ia hIv hIa
  constructor
  · rw [haeq, hbeq]
    exact Real.sqrt_le_sqrt hdv
  · rw [hbeq, hceq]
    exact Real.sqrt_le_sqrt hva

theorem bandSeries_defined (n : ℕ) (cols : List (ℚ × List (Option ℝ)))
    (fmin fmax : ℚ) (i : ℕ) (output : String) (hi : i < n)
    (hsort : cols.Pairwise fun c c' => c.1 ≤ c'.1)
    (hcells : ∀ c ∈ cols, fmin ≤ c.1 → c.1 ≤ fmax →
        ∃ v : ℝ, c.2.getD i none = some v) :
    ∃ a : ℝ, (bandSeries n cols fmin fmax output).getD i none = some a := by
  have hselsort : ((cols.filter fun c => decide (fmin ≤ c.1 ∧ c.1 ≤ fmax)).map
      Prod.fst).Chain' (· ≤ ·) := by
    refine List.Pairwise.chain' ?_
    rw [List.pairwise_map]
    exact hsort.filter _
  have hy : ∀ (k : ℕ), ∀ p ∈ (cols.filter fun c => decide (fmin ≤ c.1 ∧ c.1 ≤ fmax)).map
      (fun c => (c.1, (c.2.getD i none).map fun w =>
        (10 : ℝ) ^ (w / 10) / ((2 * Real.pi * (c.1 : ℝ)) ^ 2) ^ k)),
      ∃ v : ℝ, p.2 = some v ∧ 0 ≤ v := by
    intro k p hp
    obtain ⟨x, hx, hxp⟩ := List.mem_map.1 hp
    obtain ⟨hxm, hxpred⟩ := List.mem_filter.1 hx
    have hpred := of_decide_eq_true hxpred
    obtain ⟨w, hw⟩ := hcells x hxm hpred.1 hpred.2
    refine ⟨(10 : ℝ) ^ (w / 10) / ((2 * Real.pi * (x.1 : ℝ)) ^ 2) ^ k, ?_, ?_⟩
    · rw [← hxp, hw]
      rfl
    · have hpos : (0 : ℝ) < (10 : ℝ) ^ (w / 10) :=
        Real.rpow_pos_of_pos (by norm_num) _
      exact div_nonneg hpos.le (pow_nonneg (sq_nonneg _) _)
  by_cases hA : output = "ACC"
  · subst hA
    rw [bandSeries_acc_eq, applyRMS_getD _ _ _ hi]
    simp only [dfrms]
    rw [slice_map_acc]
    obtain ⟨I, hI, hI0⟩ := trapz_defined_nonneg _
      (by rw [map_fst_rowPts]; exact hselsort) (hy 0)
    exact ⟨Real.sqrt I, by rw [hI, npSqrt_some_of_nonneg _ hI0]⟩
  · by_cases hV : output = "VEL"
    · subst hV
      rw [bandSeries_vel_eq, applyRMS_getD _ _ _ hi]
      simp only [dfrms]
      rw [slice_map_vel]
      obtain ⟨I, hI, hI0⟩ := trapz_defined_nonneg _
        (by rw [map_fst_rowPts]; exact hselsort) (hy 1)
      exact ⟨Real.sqrt I, by rw [hI, npSqrt_some_of_nonneg _ hI0]⟩
    · rw [bandSeries_other_eq _ _ _ _ output hA hV, applyRMS_getD _ _ _ hi]
      simp only [dfrms]
      rw [slice_map_disp]
      obtain ⟨I, hI, hI0⟩ := trapz_defined_nonneg _
        (by rw [map_fst_rowPts]; exact hselsort) (hy 2)
      exact ⟨Real.sqrt I, by rw [hI, npSqrt_some_of_nonneg _ hI0]⟩

/-- Witness for the amended C5 at a concrete sorted input: one row, columns
at 1 Hz and 2 Hz, both 0 dB, band (1, 2). -/
theorem c5_amended_witness :
    ∃ a b c : ℝ,
      (bandSeries 1 [((1 : ℚ), [some (0 : ℝ)]), ((2 : ℚ), [some (0 : ℝ)])]
          1 2 "DISP").getD 0 none = some a
      ∧ (bandSeries 1 [((1 : ℚ), [some (0 : ℝ)]), ((2 : ℚ), [some (0 : ℝ)])]
          1 2 "VEL").getD 0 none = some b
      ∧ (bandSeries 1 [((1 : ℚ), [some (0 : ℝ)]), ((2 : ℚ), [some (0 : ℝ)])]
          1 2 "ACC").getD 0 none = some c
      ∧ a ≤ b ∧ b ≤ c := by
  have hsort : ([((1 : ℚ), [some (0 : ℝ)]), ((2 : ℚ), [some (0 : ℝ)])].Pairwise
      fun c c' => c.1 ≤ c'.1) := by
    norm_num [List.pairwise_cons]
  have hge1 : ∀ c ∈ [((1 : ℚ), [some (0 : ℝ)]), ((2 : ℚ), [some (0 : ℝ)])],
      (1 : ℚ) ≤ c.1 → c.1 ≤ 2 → 1 ≤ c.1 := by
    intro c _ h _
    exact h
  have hcells : ∀ c ∈ [((1 : ℚ), [some (0 : ℝ)]), ((2 : ℚ), [some (0 : ℝ)])],
      (1 : ℚ) ≤ c.1 → c.1 ≤ 2 → ∃ v : ℝ, c.2.getD 0 none = some v := by
    intro c hc _ _
    rcases List.mem_cons.1 hc with rfl | hc
    · exact ⟨0, rfl⟩
    · rcases List.mem_cons.1 hc with rfl | hc
      · exact ⟨0, rfl⟩
      · exact absurd hc (List.not_mem_nil _)
  obtain ⟨a, ha⟩ := bandSeries_defined 1 _ 1 2 0 "DISP" (by norm_num) hsort hcells
  obtain ⟨b, hb⟩ := bandSeries_defined 1 _ 1 2 0 "VEL" (by norm_num) hsort hcells
  obtain ⟨c, hc⟩ := bandSeries_defined 1 _ 1 2 0 "ACC" (by norm_num) hsort hcells
  have h := c5_amended_unit_monotonicity 1 _ 1 2 0 hsort hge1 a b c ha hb hc
  exact ⟨a, b, c, ha, hb, hc, h.1, h.2⟩

/-- Columns of the C5 counterexample table, in stored (unsorted) order:
1 Hz at 0 dB, 2.75 Hz at 0 dB, 2 Hz at 10 dB, one row. -/
noncomputable def c5cols : List (ℚ × List (Option ℝ)) :=
  [((1 : ℚ), [some (0 : ℝ)]), ((11/4 : ℚ), [some (0 : ℝ)]), ((2 : ℚ), [some (10 : ℝ)])]

theorem eval_unsorted_vel :
    bandSeries 1 c5cols 1 3 "VEL" = [some (Real.sqrt (7 / (7744 * Real.pi ^ 2)))] := by
  rw [bandSeries_vel_eq, applyRMS_one]
  simp only [dfrms]
  rw [slice_map_vel]
  have hfil : (c5cols.filter fun c => decide ((1 : ℚ) ≤ c.1 ∧ c.1 ≤ 3)) = c5cols := by
    norm_num [c5cols, List.filter_cons]
  rw [hfil]
  simp only [c5cols, List.map_cons, List.map_nil, List.getD_cons_zero, Option.map_some']
  have e1 : (10 : ℝ) ^ ((0 : ℝ) / 10) / ((2 * Real.pi * (((1 : ℚ) : ℝ))) ^ 2) ^ 1
      = 1 / (4 * Real.pi ^ 2) := by
    rw [show ((0 : ℝ) / 10) = 0 from by norm_num, Real.rpow_zero]
    have hpi : Real.pi ≠ 0 := Real.pi_ne_zero
    push_cast
    field_simp
    ring
  have e2 : (10 : ℝ) ^ ((0 : ℝ) / 10) / ((2 * Real.pi * (((11/4 : ℚ) : ℝ))) ^ 2) ^ 1
      = 4 / (121 * Real.pi ^ 2) := by
    rw [show ((0 : ℝ) / 10) = 0 from by norm_num, Real.rpow_zero]
    have hpi : Real.pi ≠ 0 := Real.pi_ne_zero
    push_cast
    field_simp
    ring
  have e3 : (10 : ℝ) ^ ((10 : ℝ) / 10) / ((2 * Real.pi * (((2 : ℚ) : ℝ))) ^ 2) ^ 1
      = 5 / (8 * Real.pi ^ 2) := by
    rw [show ((10 : ℝ) / 10) = (1 : ℝ) from by norm_num, Real.rpow_one]
    have hpi : Real.pi ≠ 0 := Real.pi_ne_zero
    push_cast
    field_simp
    ring
  rw [e1, e2, e3, trapz_triple]
  have hval : ((((11/4 : ℚ) : ℝ)) - (((1 : ℚ) : ℝ))) *
        (1 / (4 * Real.pi ^ 2) + 4 / (121 * Real.pi ^ 2)) / 2
      + (((((2 : ℚ) : ℝ)) - (((11/4 : ℚ) : ℝ))) *
        (4 / (121 * Real.pi ^ 2) + 5 / (8 * Real.pi ^ 2)) / 2 + 0)
      = 7 / (7744 * Real.pi ^ 2) := by
    have hpi : Real.pi ≠ 0 := Real.pi_ne_zero
    push_cast
    field_simp
    ring
  rw [hval, npSqrt_some_of_nonneg _ (by positivity)]

theorem eval_unsorted_disp :
    bandSeries 1 c5cols 1 3 "DISP"
      = [some (Real.sqrt (608473 / (14992384 * Real.pi ^ 4)))] := by
  rw [bandSeries_other_eq _ _ _ _ "DISP" (by decide) (by decide), applyRMS_one]
  simp only [dfrms]
  rw [slice_map_disp]
  have hfil : (c5cols.filter fun c => decide ((1 : ℚ) ≤ c.1 ∧ c.1 ≤ 3)) = c5cols := by
    norm_num [c5cols, List.filter_cons]
  rw [hfil]
  simp only [c5cols, List.map_cons, List.map_nil, List.getD_cons_zero, Option.map_some']
  have e1 : (10 : ℝ) ^ ((0 : ℝ) / 10) / ((2 * Real.pi * (((1 : ℚ) : ℝ))) ^ 2) ^ 2
      = 1 / (16 * Real.pi ^ 4) := by
    rw [show ((0 : ℝ) / 10) = 0 from by norm_num, Real.rpow_zero]
    have hpi : Real.pi ≠ 0 := Real.pi_ne_zero
    push_cast
    field_simp
    ring
  have e2 : (10 : ℝ) ^ ((0 : ℝ) / 10) / ((2 * Real.pi * (((11/4 : ℚ) : ℝ))) ^ 2) ^ 2
      = 16 / (14641 * Real.pi ^ 4) := by
    rw [show ((0 : ℝ) / 10) = 0 from by norm_num, Real.rpow_zero]
    have hpi : Real.pi ≠ 0 := Real.pi_ne_zero
    push_cast
    field_simp
    ring
  have e3 : (10 : ℝ) ^ ((10 : ℝ) / 10) / ((2 * Real.pi * (((2 : ℚ) : ℝ))) ^ 2) ^ 2
      = 5 / (128 * Real.pi ^ 4) := by
    rw [show ((10 : ℝ) / 10) = (1 : ℝ) from by norm_num, Real.rpow_one]
    have hpi : Real.pi ≠ 0 := Real.pi_ne_zero
    push_cast
    field_simp
    ring
  rw [e1, e2, e3, trapz_triple]
  have hval : ((((11/4 : ℚ) : ℝ)) - (((1 : ℚ) : ℝ))) *
        (1 / (16 * Real.pi ^ 4) + 16 / (14641 * Real.pi ^ 4)) / 2
      + (((((2 : ℚ) : ℝ)) - (((11/4 : ℚ) : ℝ))) *
        (16 / (14641 * Real.pi ^ 4) + 5 / (128 * Real.pi ^ 4)) / 2 + 0)
      = 608473 / (14992384 * Real.pi ^ 4) := by
    have hpi : Real.pi ≠ 0 := Real.pi_ne_zero
    push_cast
    field_simp
    ring
  rw [hval, npSqrt_some_of_nonneg _ (by positivity)]

/-- C5 counterexample: the claim fails on a PSD table whose columns are not
stored in ascending order.  On the one-row table with columns (in stored
order) 1 Hz: 0 dB, 2.75 Hz: 0 dB, 2 Hz: 10 dB and the band (1, 3) — all
selected frequencies at least 1 Hz and every value finite — both the
DISPLACEMENT and the VELOCITY results are defined, and the DISPLACEMENT RMS
is strictly greater than the VELOCITY RMS, because `np.trapz` follows the
stored column order. -/
theorem c5_counterexample_unsorted_breaks_monotonicity :
    (∀ c ∈ c5cols, (1 : ℚ) ≤ c.1 ∧ ∃ v : ℝ, c.2.getD 0 none = some v)
      ∧ ∃ a b : ℝ,
        (bandSeries 1 c5cols 1 3 "DISP").getD 0 none = some a
        ∧ (bandSeries 1 c5cols 1 3 "VEL").getD 0 none = some b
        ∧ b < a := by
  constructor
  · intro c hc
    rcases List.mem_cons.1 hc with rfl | hc
    · exact ⟨by norm_num, 0, rfl⟩
    · rcases List.mem_cons.1 hc with rfl | hc
      · exact ⟨by norm_num, 0, rfl⟩
      · rcases List.mem_cons.1 hc with rfl | hc
        · exact ⟨by norm_num, 10, rfl⟩
        · exact absurd hc (List.not_mem_nil _)
  · refine ⟨Real.sqrt (608473 / (14992384 * Real.pi ^ 4)),
      Real.sqrt (7 / (7744 * Real.pi ^ 2)), ?_, ?_, ?_⟩
    · rw [eval_unsorted_disp]
      rfl
    · rw [eval_unsorted_vel]
      rfl
    · refine Real.sqrt_lt_sqrt (by positivity) ?_
      rw [div_lt_div_iff (by positivity) (by positivity)]
      have hpi2 : Real.pi ^ 2 < 10 := by
        nlinarith [Real.pi_lt_315, Real.pi_pos]
      nlinarith [hpi2, pow_pos Real.pi_pos 2]
